import Mathlib

/-!
Shallow embedding of the scoring engine of `src/app.py` (FRED liquidity
visualizer): per-series min-max normalization, polarity orientation, weighted
aggregation, point-in-time selection with year/month fallback, and the monthly
history builder.  Observations form a flat table of rows (series name, date,
value), as in the pandas DataFrame `all_data`; values are modelled as rationals,
dates as (year, month, day) triples ordered chronologically.
-/

namespace Fred

/-- Calendar date at day granularity (the `Date` column). -/
structure Date where
  year : Int
  month : Int
  day : Int
deriving DecidableEq, Repr

/-- Chronological order on dates: lexicographic on (year, month, day). -/
def Date.le (a b : Date) : Prop :=
  a.year < b.year ∨
    (a.year = b.year ∧ (a.month < b.month ∨ (a.month = b.month ∧ a.day ≤ b.day)))

instance Date.decLe : DecidableRel Date.le := fun a b => by
  unfold Date.le; infer_instance

instance Date.le.isTotal : IsTotal Date Date.le :=
  ⟨fun a b => by unfold Date.le; omega⟩

instance Date.le.isTrans : IsTrans Date Date.le :=
  ⟨fun a b c h1 h2 => by unfold Date.le at *; omega⟩

/-- One row of the `all_data` table: series display name, date, raw value. -/
structure Row where
  series : String
  date : Date
  value : ℚ
deriving DecidableEq, Repr

/-- Order on rows by date only (the key of `sort_values("Date")`). -/
def rowLe (a b : Row) : Prop := Date.le a.date b.date

instance rowLe.dec : DecidableRel rowLe := fun a b => by
  unfold rowLe; infer_instance

instance rowLe.total : IsTotal Row rowLe :=
  ⟨fun a b => IsTotal.total (r := Date.le) a.date b.date⟩

instance rowLe.trans : IsTrans Row rowLe :=
  ⟨fun _ _ _ h1 h2 => IsTrans.trans (r := Date.le) _ _ _ h1 h2⟩

/-- Stable sort of rows by date: `df_sub.sort_values("Date")`. -/
def sortByDate (l : List Row) : List Row := List.insertionSort rowLe l

/-- First-occurrence deduplication, as pandas `Series.unique()`. -/
def uniqueFirstAux {α : Type} [DecidableEq α] (seen : List α) : List α → List α
  | [] => []
  | x :: xs =>
      if x ∈ seen then uniqueFirstAux seen xs
      else x :: uniqueFirstAux (x :: seen) xs

/-- Distinct values in first-occurrence order (`df["Series"].unique()`). -/
def uniqueFirst {α : Type} [DecidableEq α] (l : List α) : List α :=
  uniqueFirstAux [] l

/-- The distinct series names of the table, in first-occurrence order. -/
def seriesList (df : List Row) : List String :=
  uniqueFirst (df.map (fun r => r.series))

/-- The rows of one series: `df[df["Series"] == name]`. -/
def rowsOf (df : List Row) (name : String) : List Row :=
  df.filter (fun r => decide (r.series = name))

/-- Minimum of a value column (`values.min()`); 0 on the empty list (unused). -/
def minValue : List ℚ → ℚ
  | [] => 0
  | v :: vs => vs.foldl min v

/-- Maximum of a value column (`values.max()`); 0 on the empty list (unused). -/
def maxValue : List ℚ → ℚ
  | [] => 0
  | v :: vs => vs.foldl max v

/-- sklearn `MinMaxScaler` with the default feature range: `(v - min) / (max - min)`,
where a zero range is replaced by 1 (`_handle_zeros_in_scale`), so a constant
series maps every observed value to 0 instead of dividing by zero. -/
def mmScale (vals : List ℚ) (v : ℚ) : ℚ :=
  (v - minValue vals) /
    (if maxValue vals - minValue vals = 0 then 1 else maxValue vals - minValue vals)

/-- The value column of a series in date order (`df_sub["Value"].values`). -/
def fullVals (sub : List Row) : List ℚ :=
  (sortByDate sub).map (fun r => r.value)

/-- The reverse-direction indicators of `calculate_liquidity_score` (values
lower means more liquidity). -/
def inverted_indicators : List String :=
  ["Reverse Repo (RRP)", "Federal Funds Rate", "3-Month Treasury Rate",
   "Dollar Index (EUR/USD)"]

/-- Polarity correction: `latest = 1 - latest` for reverse-direction series. -/
def orient (name : String) (x : ℚ) : ℚ :=
  if name ∈ inverted_indicators then 1 - x else x

/-- The weight table `indicator_weights` of the source. -/
def indicator_weights : List (String × ℚ) :=
  [("Reverse Repo (RRP)", 30/100),
   ("Bank Reserves", 25/100),
   ("M2 Money Supply", 20/100),
   ("Federal Funds Rate", 15/100),
   ("3-Month Treasury Rate", 7/100),
   ("Dollar Index (EUR/USD)", 3/100)]

/-- Dictionary lookup (`indicator_weights[series]`, first match). -/
def wlookup (w : List (String × ℚ)) (name : String) : Option ℚ :=
  match w with
  | [] => none
  | p :: rest => if p.1 = name then some p.2 else wlookup rest name

/-- The weighted sum of the score dict:
`sum(score_dict[s] * indicator_weights[s] for s in score_dict if s in indicator_weights)`;
a name without a weight contributes nothing (the source omits it from the
generator, which is the same sum). -/
def weightedSum (w : List (String × ℚ)) (sd : List (String × ℚ)) : ℚ :=
  (sd.map (fun p =>
    match wlookup w p.1 with
    | some wt => p.2 * wt
    | none => 0)).sum

/-- Python `round(x, 1)` (the half-to-even tie rule is irrelevant here: no
claim depends on a tie, and float ties are not exact; we use Mathlib `round`). -/
def round1 (x : ℚ) : ℚ := (round (10 * x) : ℤ) / 10

/-- The weight of a name, defaulting to 0 (a name outside the weight table
contributes nothing to the weighted sum). -/
def wval (w : List (String × ℚ)) (name : String) : ℚ :=
  (wlookup w name).getD 0

/-- Python truthiness of an optional integer argument (`if target_year:`),
under which both `None` and `0` are falsy. -/
def truthy : Option Int → Bool
  | none => false
  | some n => decide (n ≠ 0)

/-- The period filter of `calculate_liquidity_score`: rows of the exact
(year, month), else rows of the year at or before the month, else (year-only
query) rows of the year. -/
def periodRows (sub : List Row) (ty : Int) (tm : Option Int) : List Row :=
  if truthy tm then
    let m := tm.getD 0
    let exact := sub.filter (fun r => decide (r.date.year = ty ∧ r.date.month = m))
    if exact.isEmpty then
      sub.filter (fun r => decide (r.date.year = ty ∧ r.date.month ≤ m))
    else exact
  else
    sub.filter (fun r => decide (r.date.year = ty))

/-- `df_period["Date"].max()`. -/
def maxDateOf : List Row → Option Date
  | [] => none
  | r :: rs => some (rs.foldl (fun d r2 => if Date.le d r2.date then r2.date else d) r.date)

/-- One series' scaled value in `calculate_liquidity_score`: the whole series
is scaled with a min-max scaler fit on the whole series, and the entry at the
target position is taken — the first row (in date order) whose date is the
maximum date of the period, or the last row when no year is requested.
`none` models the `continue` statements (the indicator is skipped). -/
def latestScaled (sub : List Row) (ty tm : Option Int) : Option ℚ :=
  let sorted := sortByDate sub
  if truthy ty then
    match maxDateOf (periodRows sorted (ty.getD 0) tm) with
    | none => none
    | some d =>
        match sorted.find? (fun r => decide (r.date = d)) with
        | some r => some (mmScale (fullVals sub) r.value)
        | none => none
  else
    match sorted.getLast? with
    | some r => some (mmScale (fullVals sub) r.value)
    | none => none

/-- One indicator's oriented contribution to the point-in-time score. -/
def contrib (df : List Row) (ty tm : Option Int) (name : String) : Option ℚ :=
  (latestScaled (rowsOf df name) ty tm).map (orient name)

/-- The `score_dict` of `calculate_liquidity_score`: one oriented scaled value
per series that was not skipped. -/
def score_dict (df : List Row) (ty tm : Option Int) : List (String × ℚ) :=
  (seriesList df).filterMap (fun name =>
    (contrib df ty tm name).map (fun x => (name, x)))

/-- `calculate_liquidity_score(df, target_year, target_month)`: weighted sum of
the score dict, times 100, rounded to one decimal place.  The weight table is
a parameter (the source reads the global `indicator_weights`). -/
def calculate_liquidity_score (w : List (String × ℚ)) (df : List Row)
    (ty tm : Option Int) : ℚ :=
  round1 (weightedSum w (score_dict df ty tm) * 100)

/-- The month keys of the table, as `df.groupby([year, month])`. -/
def monthKeys (df : List Row) : List (Int × Int) :=
  uniqueFirst (df.map (fun r => (r.date.year, r.date.month)))

/-- The rows of one (year, month) group. -/
def monthRows (df : List Row) (k : Int × Int) : List Row :=
  df.filter (fun r => decide ((r.date.year, r.date.month) = k))

/-- The (year, month) bucket of a date. -/
def monthKeyOf (d : Date) : Int × Int := (d.year, d.month)

/-- The maximum date of a (year, month) group, totalized with a junk default
(only applied to keys whose group is nonempty). -/
def monthMax (df : List Row) (k : Int × Int) : Date :=
  (maxDateOf (monthRows df k)).getD ⟨0, 0, 0⟩

/-- The representative monthly dates of `calculate_liquidity_score_history`:
the maximum date of each (year, month) group over the whole table, sorted
ascending (`sorted(monthly_dates)`). -/
def monthlyDates (df : List Row) : List Date :=
  List.insertionSort Date.le
    ((monthKeys df).filterMap (fun k => maxDateOf (monthRows df k)))

/-- One indicator's oriented contribution at a history date `d`: the last value
of the series at or before `d`, scaled with the scaler fit on the full series
(`scaler_dict`), oriented; `none` models the `continue` (series with no data up
to `d`, or series absent from `scaler_dict`, i.e. with no data at all). -/
def hcontrib (df : List Row) (d : Date) (name : String) : Option ℚ :=
  let series_data := sortByDate (rowsOf (df.filter (fun r => decide (Date.le r.date d))) name)
  if series_data.isEmpty || (rowsOf df name).isEmpty then none
  else
    series_data.getLast?.map (fun r =>
      orient name (mmScale (fullVals (rowsOf df name)) r.value))

/-- The per-date `score_dict` of `calculate_liquidity_score_history`. -/
def historyScoreDict (df : List Row) (d : Date) : List (String × ℚ) :=
  (seriesList df).filterMap (fun name =>
    (hcontrib df d name).map (fun x => (name, x)))

/-- One row of the history output. -/
structure HistEntry where
  date : Date
  score : ℚ
deriving DecidableEq, Repr

/-- `calculate_liquidity_score_history(df)`: for each representative monthly
date, the weighted score over all series with data up to that date; a date
with no data at all, or whose score dict is empty, is omitted (the two
`continue`/`if len(score_dict) > 0` branches). -/
def calculate_liquidity_score_history (w : List (String × ℚ)) (df : List Row) :
    List HistEntry :=
  (monthlyDates df).filterMap (fun d =>
    if (df.filter (fun r => decide (Date.le r.date d))).isEmpty then none
    else
      let sd := historyScoreDict df d
      if sd.isEmpty then none
      else some ⟨d, round1 (weightedSum w sd * 100)⟩)

/-- The total weight of the entries of a score dict (the sum of the weights of
the indicators that produced a value). -/
def activeWeightSum (w : List (String × ℚ)) (sd : List (String × ℚ)) : ℚ :=
  (sd.map (fun p => wval w p.1)).sum

/-! ### Concrete observation stores used as witnesses and counterexamples -/

/-- Indicator A with observations only in January and March 2024. -/
def dfC1 : List Row :=
  [⟨"A", ⟨2024, 1, 1⟩, 10⟩, ⟨"A", ⟨2024, 3, 1⟩, 0⟩]

/-- A store whose only observation is in 2023 (queried for 2025). -/
def dfC2 : List Row :=
  [⟨"A", ⟨2023, 5, 1⟩, 7⟩]

/-- Two 2020 observations of A; appending a 2021 observation changes the
scaling range. -/
def dfC3 : List Row :=
  [⟨"A", ⟨2020, 1, 1⟩, 5⟩, ⟨"A", ⟨2020, 2, 1⟩, 10⟩]

/-- A later (2021) observation of A, outside every 2020 query period. -/
def rowC3 : Row := ⟨"A", ⟨2021, 1, 1⟩, 20⟩

/-- A store whose single series spans the scaling range [0, 10]. -/
def dfC4 : List Row :=
  [⟨"A", ⟨2020, 1, 1⟩, 0⟩, ⟨"A", ⟨2020, 6, 1⟩, 10⟩]

/-- Stores that differ only in the rows of the weight-0 indicator B. -/
def dfC7a : List Row :=
  [⟨"A", ⟨2020, 1, 1⟩, 1⟩, ⟨"A", ⟨2020, 2, 1⟩, 3⟩, ⟨"B", ⟨2020, 1, 1⟩, 100⟩]

/-- Same A rows as `dfC7a`, radically different B rows. -/
def dfC7b : List Row :=
  [⟨"A", ⟨2020, 1, 1⟩, 1⟩, ⟨"A", ⟨2020, 2, 1⟩, 3⟩, ⟨"B", ⟨2021, 5, 5⟩, -50⟩]

/-- Constant-valued series (degenerate scaling range). -/
def dfC8 : List Row :=
  [⟨"A", ⟨2020, 1, 1⟩, 5⟩, ⟨"A", ⟨2020, 2, 1⟩, 5⟩]

/-- Indicator A with observations in January and March 2024 (month-13 query). -/
def dfC9 : List Row :=
  [⟨"A", ⟨2024, 1, 1⟩, 0⟩, ⟨"A", ⟨2024, 3, 1⟩, 10⟩]

/-- A one-row store (single month in the history). -/
def dfC10 : List Row :=
  [⟨"A", ⟨2020, 1, 5⟩, 1⟩]

/-- A one-row store for a weighted FRED indicator. -/
def dfC6 : List Row :=
  [⟨"M2 Money Supply", ⟨2020, 1, 1⟩, 5⟩]

/-! ### Helper lemmas -/

theorem Date.le_refl (a : Date) : Date.le a a := by unfold Date.le; omega

theorem Date.le_trans {a b c : Date} (h1 : Date.le a b) (h2 : Date.le b c) :
    Date.le a c := by
  unfold Date.le at *; omega

theorem Date.le_total (a b : Date) : Date.le a b ∨ Date.le b a := by
  unfold Date.le; omega

theorem Date.le_antisymm {a b : Date} (h1 : Date.le a b) (h2 : Date.le b a) :
    a = b := by
  unfold Date.le at *
  rcases a with ⟨ay, am, ad⟩
  rcases b with ⟨cy, cm, cd⟩
  dsimp only at h1 h2
  simp only [Date.mk.injEq]
  omega

theorem mem_uniqueFirstAux {α : Type} [DecidableEq α] (l : List α) :
    ∀ (seen : List α) (a : α),
      a ∈ uniqueFirstAux seen l ↔ a ∈ l ∧ a ∉ seen := by
  induction l with
  | nil => intro seen a; simp [uniqueFirstAux]
  | cons x xs ih =>
      intro seen a
      by_cases hx : x ∈ seen
      · rw [uniqueFirstAux, if_pos hx, ih]
        by_cases hax : a = x
        · subst hax; simp [hx]
        · simp [hax]
      · rw [uniqueFirstAux, if_neg hx]
        by_cases hax : a = x
        · subst hax; simp [hx]
        · simp [ih, hax]

theorem mem_uniqueFirst {α : Type} [DecidableEq α] {l : List α} {a : α} :
    a ∈ uniqueFirst l ↔ a ∈ l := by
  rw [uniqueFirst, mem_uniqueFirstAux]
  simp

theorem nodup_uniqueFirstAux {α : Type} [DecidableEq α] (l : List α) :
    ∀ seen : List α, (uniqueFirstAux seen l).Nodup := by
  induction l with
  | nil => intro seen; simp [uniqueFirstAux]
  | cons x xs ih =>
      intro seen
      by_cases hx : x ∈ seen
      · rw [uniqueFirstAux, if_pos hx]; exact ih seen
      · rw [uniqueFirstAux, if_neg hx]
        refine List.nodup_cons.mpr ⟨?_, ih (x :: seen)⟩
        intro hmem
        exact ((mem_uniqueFirstAux xs (x :: seen) x).mp hmem).2 (List.mem_cons_self x seen)

theorem nodup_uniqueFirst {α : Type} [DecidableEq α] (l : List α) :
    (uniqueFirst l).Nodup :=
  nodup_uniqueFirstAux l []

theorem foldl_maxDate_spec (rs : List Row) : ∀ d0 : Date,
    (rs.foldl (fun d r2 => if Date.le d r2.date then r2.date else d) d0 = d0 ∨
      ∃ r ∈ rs, rs.foldl (fun d r2 => if Date.le d r2.date then r2.date else d) d0 = r.date) ∧
    Date.le d0 (rs.foldl (fun d r2 => if Date.le d r2.date then r2.date else d) d0) ∧
    ∀ r ∈ rs, Date.le r.date (rs.foldl (fun d r2 => if Date.le d r2.date then r2.date else d) d0) := by
  induction rs with
  | nil => intro d0; exact ⟨Or.inl rfl, Date.le_refl d0, by simp⟩
  | cons r rs ih =>
      intro d0
      simp only [List.foldl_cons]
      set d1 := if Date.le d0 r.date then r.date else d0 with hd1
      have h01 : Date.le d0 d1 := by
        rw [hd1]; split
        · assumption
        · exact Date.le_refl d0
      have hr1 : Date.le r.date d1 := by
        rw [hd1]; split
        · exact Date.le_refl r.date
        · rcases Date.le_total r.date d0 with h | h
          · exact h
          · exact absurd h (by assumption)
      obtain ⟨hmem, hle, hub⟩ := ih d1
      refine ⟨?_, Date.le_trans h01 hle, ?_⟩
      · rcases hmem with h | ⟨r2, hr2, hr2e⟩
        · rw [h, hd1]
          split
          · exact Or.inr ⟨r, List.mem_cons_self r rs, rfl⟩
          · exact Or.inl rfl
        · exact Or.inr ⟨r2, List.mem_cons_of_mem r hr2, hr2e⟩
      · intro r2 hr2
        rcases List.mem_cons.mp hr2 with h | h
        · subst h; exact Date.le_trans hr1 hle
        · exact hub r2 h

theorem maxDateOf_eq_some {l : List Row} {d : Date} (h : maxDateOf l = some d) :
    (∃ r ∈ l, r.date = d) ∧ ∀ r ∈ l, Date.le r.date d := by
  match l with
  | [] => simp [maxDateOf] at h
  | r :: rs =>
      rw [maxDateOf] at h
      obtain ⟨hmem, hle, hub⟩ := foldl_maxDate_spec rs r.date
      injection h with h
      subst h
      constructor
      · rcases hmem with h | ⟨r2, hr2, hr2e⟩
        · exact ⟨r, List.mem_cons_self r rs, h.symm⟩
        · exact ⟨r2, List.mem_cons_of_mem r hr2, hr2e.symm⟩
      · intro r2 hr2
        rcases List.mem_cons.mp hr2 with h2 | h2
        · subst h2; exact hle
        · exact hub r2 h2

theorem maxDateOf_ne_none {l : List Row} (h : l ≠ []) : maxDateOf l ≠ none := by
  match l with
  | [] => exact absurd rfl h
  | r :: rs => rw [maxDateOf]; exact Option.some_ne_none _

theorem foldl_min_spec (vs : List ℚ) : ∀ v0 : ℚ,
    (vs.foldl min v0 = v0 ∨ vs.foldl min v0 ∈ vs) ∧
    vs.foldl min v0 ≤ v0 ∧ ∀ x ∈ vs, vs.foldl min v0 ≤ x := by
  induction vs with
  | nil => intro v0; exact ⟨Or.inl rfl, le_refl v0, by simp⟩
  | cons v vs ih =>
      intro v0
      simp only [List.foldl_cons]
      obtain ⟨hmem, hle, hlb⟩ := ih (min v0 v)
      refine ⟨?_, le_trans hle (min_le_left v0 v), ?_⟩
      · rcases hmem with h | h
        · rcases le_total v0 v with h2 | h2
          · rw [h, min_eq_left h2]; exact Or.inl rfl
          · rw [h, min_eq_right h2]; exact Or.inr (List.mem_cons_self v vs)
        · exact Or.inr (List.mem_cons_of_mem v h)
      · intro x hx
        rcases List.mem_cons.mp hx with h | h
        · subst h; exact le_trans hle (min_le_right v0 x)
        · exact hlb x h

theorem foldl_max_spec (vs : List ℚ) : ∀ v0 : ℚ,
    (vs.foldl max v0 = v0 ∨ vs.foldl max v0 ∈ vs) ∧
    v0 ≤ vs.foldl max v0 ∧ ∀ x ∈ vs, x ≤ vs.foldl max v0 := by
  induction vs with
  | nil => intro v0; exact ⟨Or.inl rfl, le_refl v0, by simp⟩
  | cons v vs ih =>
      intro v0
      simp only [List.foldl_cons]
      obtain ⟨hmem, hle, hub⟩ := ih (max v0 v)
      refine ⟨?_, le_trans (le_max_left v0 v) hle, ?_⟩
      · rcases hmem with h | h
        · rcases le_total v0 v with h2 | h2
          · rw [h, max_eq_right h2]; exact Or.inr (List.mem_cons_self v vs)
          · rw [h, max_eq_left h2]; exact Or.inl rfl
        · exact Or.inr (List.mem_cons_of_mem v h)
      · intro x hx
        rcases List.mem_cons.mp hx with h | h
        · subst h; exact le_trans (le_max_right v0 x) hle
        · exact hub x h

theorem minValue_le {vals : List ℚ} {v : ℚ} (h : v ∈ vals) : minValue vals ≤ v := by
  match vals with
  | [] => simp at h
  | v0 :: vs =>
      obtain ⟨_, hle, hlb⟩ := foldl_min_spec vs v0
      rw [minValue]
      rcases List.mem_cons.mp h with h2 | h2
      · subst h2; exact hle
      · exact hlb v h2

theorem le_maxValue {vals : List ℚ} {v : ℚ} (h : v ∈ vals) : v ≤ maxValue vals := by
  match vals with
  | [] => simp at h
  | v0 :: vs =>
      obtain ⟨_, hle, hub⟩ := foldl_max_spec vs v0
      rw [maxValue]
      rcases List.mem_cons.mp h with h2 | h2
      · subst h2; exact hle
      · exact hub v h2

theorem minValue_mem {vals : List ℚ} (h : vals ≠ []) : minValue vals ∈ vals := by
  match vals with
  | [] => exact absurd rfl h
  | v0 :: vs =>
      obtain ⟨hmem, _, _⟩ := foldl_min_spec vs v0
      rw [minValue]
      rcases hmem with h2 | h2
      · rw [h2]; exact List.mem_cons_self v0 vs
      · exact List.mem_cons_of_mem v0 h2

theorem mmScale_bounds {vals : List ℚ} {v : ℚ} (h : v ∈ vals) :
    0 ≤ mmScale vals v ∧ mmScale vals v ≤ 1 := by
  have hlo := minValue_le h
  have hhi := le_maxValue h
  rw [mmScale]
  split
  · rename_i hdeg
    have hveq : v = minValue vals := le_antisymm (by linarith) hlo
    rw [hveq, sub_self, zero_div]
    norm_num
  · rename_i hdeg
    have hpos : 0 < maxValue vals - minValue vals := by
      rcases lt_or_eq_of_le (by linarith : (0:ℚ) ≤ maxValue vals - minValue vals) with h2 | h2
      · exact h2
      · exact absurd h2.symm hdeg
    constructor
    · apply div_nonneg <;> linarith
    · rw [div_le_one hpos]; linarith

theorem mmScale_const {vals : List ℚ} {v c : ℚ} (hall : ∀ x ∈ vals, x = c)
    (hv : v ∈ vals) : mmScale vals v = 0 := by
  have h1 : v = c := hall v hv
  have h2 : minValue vals = c := hall _ (minValue_mem (by rintro rfl; simp at hv))
  rw [mmScale, h1, h2, sub_self, zero_div]

theorem mmScale_den_ne (vals : List ℚ) :
    (if maxValue vals - minValue vals = 0 then (1:ℚ)
     else maxValue vals - minValue vals) ≠ 0 := by
  split
  · exact one_ne_zero
  · assumption

theorem sortByDate_perm (l : List Row) : (sortByDate l).Perm l :=
  List.perm_insertionSort rowLe l

theorem mem_sortByDate {l : List Row} {r : Row} : r ∈ sortByDate l ↔ r ∈ l :=
  (sortByDate_perm l).mem_iff

theorem sortByDate_sorted (l : List Row) : List.Sorted rowLe (sortByDate l) :=
  List.sorted_insertionSort rowLe l

theorem mem_fullVals {sub : List Row} {r : Row} (h : r ∈ sub) :
    r.value ∈ fullVals sub := by
  rw [fullVals]
  exact List.mem_map_of_mem _ (mem_sortByDate.mpr h)

theorem latestScaled_eq_some {sub : List Row} {ty tm : Option Int} {x : ℚ}
    (h : latestScaled sub ty tm = some x) :
    ∃ r ∈ sub, x = mmScale (fullVals sub) r.value := by
  rw [latestScaled] at h
  by_cases hty : truthy ty
  · rw [if_pos hty] at h
    rcases hmax : maxDateOf (periodRows (sortByDate sub) (ty.getD 0) tm) with _ | d
    · rw [hmax] at h; exact absurd h (by simp)
    · rw [hmax] at h
      dsimp only at h
      rcases hfind : (sortByDate sub).find? (fun r => decide (r.date = d)) with _ | r
      · rw [hfind] at h; exact absurd h (by simp)
      · rw [hfind] at h
        injection h with h
        exact ⟨r, mem_sortByDate.mp (List.mem_of_find?_eq_some hfind), h.symm⟩
  · rw [if_neg hty] at h
    rcases hlast : (sortByDate sub).getLast? with _ | r
    · rw [hlast] at h; exact absurd h (by simp)
    · rw [hlast] at h
      injection h with h
      refine ⟨r, mem_sortByDate.mp ?_, h.symm⟩
      obtain ⟨ys, hys⟩ := List.getLast?_eq_some_iff.mp hlast
      rw [hys]
      exact List.mem_append_right ys (List.mem_cons_self r [])

theorem orient_bounds {name : String} {x : ℚ} (h0 : 0 ≤ x) (h1 : x ≤ 1) :
    0 ≤ orient name x ∧ orient name x ≤ 1 := by
  rw [orient]
  split
  · constructor <;> linarith
  · exact ⟨h0, h1⟩

theorem contrib_bounds {df : List Row} {ty tm : Option Int} {name : String} {x : ℚ}
    (h : contrib df ty tm name = some x) : 0 ≤ x ∧ x ≤ 1 := by
  rw [contrib] at h
  rcases hls : latestScaled (rowsOf df name) ty tm with _ | y
  · rw [hls] at h; exact absurd h (by simp)
  · rw [hls] at h
    injection h with h
    subst h
    obtain ⟨r, hr, hy⟩ := latestScaled_eq_some hls
    obtain ⟨hy0, hy1⟩ := hy ▸ mmScale_bounds (mem_fullVals hr)
    exact orient_bounds hy0 hy1

/-- Keys of a keyed filterMap are a sublist of the key list. -/
theorem keyedFilterMap_keys_sublist (g : String → Option ℚ) (l : List String) :
    ((l.filterMap (fun name => (g name).map (fun x => (name, x)))).map Prod.fst).Sublist l := by
  induction l with
  | nil => simp
  | cons n ns ih =>
      rw [List.filterMap_cons]
      rcases g n with _ | x
      · exact ih.cons n
      · simpa using ih.cons₂ n

theorem score_dict_keys_nodup (df : List Row) (ty tm : Option Int) :
    ((score_dict df ty tm).map Prod.fst).Nodup := by
  rw [score_dict]
  exact List.Sublist.nodup (keyedFilterMap_keys_sublist _ _)
    (nodup_uniqueFirst _)

theorem mem_score_dict_bounds {df : List Row} {ty tm : Option Int}
    {p : String × ℚ} (h : p ∈ score_dict df ty tm) : 0 ≤ p.2 ∧ p.2 ≤ 1 := by
  rw [score_dict] at h
  obtain ⟨name, _, hsome⟩ := List.mem_filterMap.mp h
  rcases hc : contrib df ty tm name with _ | x
  · rw [hc] at hsome; exact absurd hsome (by simp)
  · rw [hc] at hsome
    simp only [Option.map_some'] at hsome
    injection hsome with hsome
    have := contrib_bounds hc
    rw [← hsome]
    exact this

theorem wlookup_mem {w : List (String × ℚ)} {name : String} {wt : ℚ}
    (h : wlookup w name = some wt) : ∃ p ∈ w, p.1 = name ∧ p.2 = wt := by
  induction w with
  | nil => simp [wlookup] at h
  | cons q rest ih =>
      rw [wlookup] at h
      by_cases hq : q.1 = name
      · rw [if_pos hq] at h
        injection h with h
        exact ⟨q, List.mem_cons_self q rest, hq, h⟩
      · rw [if_neg hq] at h
        obtain ⟨p, hp, he⟩ := ih h
        exact ⟨p, List.mem_cons_of_mem q hp, he⟩

theorem weightedSum_nonneg {w : List (String × ℚ)} {sd : List (String × ℚ)}
    (hw : ∀ q ∈ w, 0 ≤ q.2) (hsd : ∀ p ∈ sd, 0 ≤ p.2) :
    0 ≤ weightedSum w sd := by
  rw [weightedSum]
  apply List.sum_nonneg
  intro x hx
  obtain ⟨p, hp, hpe⟩ := List.mem_map.mp hx
  rcases hl : wlookup w p.1 with _ | wt
  · rw [hl] at hpe; rw [← hpe]
  · rw [hl] at hpe
    rw [← hpe]
    obtain ⟨q, hq, _, hqw⟩ := wlookup_mem hl
    exact mul_nonneg (hsd p hp) (hqw ▸ hw q hq)

theorem wval_nonneg {w : List (String × ℚ)} (hw : ∀ q ∈ w, 0 ≤ q.2)
    (name : String) : 0 ≤ wval w name := by
  rw [wval]
  rcases hl : wlookup w name with _ | wt
  · simp
  · obtain ⟨q, hq, _, hqw⟩ := wlookup_mem hl
    simpa using hqw ▸ hw q hq

theorem wval_eq_zero_of_not_mem {w : List (String × ℚ)} {name : String}
    (h : name ∉ w.map Prod.fst) : wval w name = 0 := by
  rw [wval]
  rcases hl : wlookup w name with _ | wt
  · simp
  · obtain ⟨q, hq, hqn, _⟩ := wlookup_mem hl
    exact absurd (hqn ▸ List.mem_map_of_mem Prod.fst hq) h

theorem weightedSum_eq_sum_wval (w : List (String × ℚ)) (sd : List (String × ℚ)) :
    weightedSum w sd = (sd.map (fun p => p.2 * wval w p.1)).sum := by
  rw [weightedSum]
  congr 1
  apply List.map_congr_left
  intro p _
  rcases hl : wlookup w p.1 with _ | wt
  · simp [wval, hl]
  · simp [wval, hl]

theorem sum_wval_over_keys_nodup {w : List (String × ℚ)}
    (hwk : (w.map Prod.fst).Nodup) :
    ∑ n ∈ (w.map Prod.fst).toFinset, wval w n = (w.map Prod.snd).sum := by
  induction w with
  | nil => simp
  | cons q rest ih =>
      have hq : q.1 ∉ rest.map Prod.fst := (List.nodup_cons.mp hwk).1
      have hrest : (rest.map Prod.fst).Nodup := (List.nodup_cons.mp hwk).2
      have hstep : ∀ n ∈ (rest.map Prod.fst).toFinset,
          wval (q :: rest) n = wval rest n := by
        intro n hn
        rw [List.mem_toFinset] at hn
        have hne : q.1 ≠ n := fun he => hq (he ▸ hn)
        rw [wval, wval, wlookup, if_neg hne]
      have hqv : wval (q :: rest) q.1 = q.2 := by
        rw [wval, wlookup, if_pos rfl]
        rfl
      rw [List.map_cons, List.toFinset_cons]
      rw [Finset.sum_insert (by simpa using hq)]
      rw [hqv, Finset.sum_congr rfl hstep, ih hrest]
      simp

theorem weightedSum_le_of_nodup {w sd : List (String × ℚ)}
    (hwk : (w.map Prod.fst).Nodup) (hw : ∀ q ∈ w, 0 ≤ q.2)
    (hk : (sd.map Prod.fst).Nodup) (hv : ∀ p ∈ sd, 0 ≤ p.2 ∧ p.2 ≤ 1) :
    weightedSum w sd ≤ (w.map Prod.snd).sum := by
  rw [weightedSum_eq_sum_wval]
  have h1 : (sd.map (fun p => p.2 * wval w p.1)).sum ≤
      (sd.map (fun p => wval w p.1)).sum := by
    apply List.sum_le_sum
    intro p hp
    have h0 := wval_nonneg hw p.1
    have hb := (hv p hp).2
    nlinarith [(hv p hp).1]
  have h2 : (sd.map (fun p => wval w p.1)).sum =
      ((sd.map Prod.fst).map (wval w)).sum := by
    rw [List.map_map]; rfl
  have h3 : ((sd.map Prod.fst).map (wval w)).sum =
      ∑ n ∈ (sd.map Prod.fst).toFinset, wval w n :=
    (List.sum_toFinset _ hk).symm
  have h4 : ∑ n ∈ (sd.map Prod.fst).toFinset, wval w n ≤
      ∑ n ∈ ((sd.map Prod.fst).toFinset ∪ (w.map Prod.fst).toFinset), wval w n := by
    apply Finset.sum_le_sum_of_subset_of_nonneg (Finset.subset_union_left)
    intro n _ _
    exact wval_nonneg hw n
  have h5 : ∑ n ∈ (w.map Prod.fst).toFinset, wval w n =
      ∑ n ∈ ((sd.map Prod.fst).toFinset ∪ (w.map Prod.fst).toFinset), wval w n := by
    apply Finset.sum_subset (Finset.subset_union_right)
    intro n _ hn
    rw [List.mem_toFinset] at hn
    exact wval_eq_zero_of_not_mem hn
  calc (sd.map (fun p => p.2 * wval w p.1)).sum
      ≤ (sd.map (fun p => wval w p.1)).sum := h1
    _ = ∑ n ∈ (sd.map Prod.fst).toFinset, wval w n := by rw [h2, h3]
    _ ≤ ∑ n ∈ ((sd.map Prod.fst).toFinset ∪ (w.map Prod.fst).toFinset), wval w n := h4
    _ = ∑ n ∈ (w.map Prod.fst).toFinset, wval w n := h5.symm
    _ = (w.map Prod.snd).sum := sum_wval_over_keys_nodup hwk

theorem round1_bounds {x lo hi : ℚ} (h0 : lo ≤ x) (h1 : x ≤ hi) :
    (round (10 * lo) : ℚ) / 10 ≤ round1 x ∧
      round1 x ≤ (round (10 * hi) : ℚ) / 10 := by
  have hm : round (10 * lo) ≤ round (10 * x) := by
    rw [round_eq, round_eq]
    apply Int.floor_mono
    linarith
  have hm2 : round (10 * x) ≤ round (10 * hi) := by
    rw [round_eq, round_eq]
    apply Int.floor_mono
    linarith
  rw [round1]
  constructor
  · apply div_le_div_of_nonneg_right _ (by norm_num)
    exact_mod_cast hm
  · apply div_le_div_of_nonneg_right _ (by norm_num)
    exact_mod_cast hm2

theorem find_max_of_filter {l : List Row} {p : Row → Bool}
    (hnd : (l.map (fun r => r.date)).Nodup) {d : Date}
    (hmax : maxDateOf (l.filter p) = some d) :
    ∃ r, l.find? (fun r => decide (r.date = d)) = some r ∧ r ∈ l ∧ p r = true ∧
      r.date = d ∧ ∀ r2 ∈ l, p r2 = true → Date.le r2.date d := by
  obtain ⟨⟨rp, hrpmem, hrpd⟩, hub⟩ := maxDateOf_eq_some hmax
  obtain ⟨hrpl, hrpp⟩ := List.mem_filter.mp hrpmem
  have hsome : (l.find? (fun r => decide (r.date = d))).isSome := by
    rw [List.find?_isSome]
    exact ⟨rp, hrpl, by simp [hrpd]⟩
  rcases hfind : l.find? (fun r => decide (r.date = d)) with _ | r
  · rw [hfind] at hsome; simp at hsome
  · have hrl := List.mem_of_find?_eq_some hfind
    have hrd : r.date = d := by simpa using List.find?_some hfind
    have hreq : r = rp := List.inj_on_of_nodup_map hnd hrl hrpl (by rw [hrd, hrpd])
    refine ⟨r, hfind, hrl, hreq ▸ hrpp, hrd, ?_⟩
    intro r2 h2 hp2
    exact hub r2 (List.mem_filter.mpr ⟨h2, hp2⟩)

theorem latestScaled_pos {sub : List Row} {ty tm : Option Int}
    (hy : truthy ty = true) :
    latestScaled sub ty tm =
      match maxDateOf (periodRows (sortByDate sub) (ty.getD 0) tm) with
      | none => none
      | some d =>
          match (sortByDate sub).find? (fun r => decide (r.date = d)) with
          | some r => some (mmScale (fullVals sub) r.value)
          | none => none := by
  rw [latestScaled, if_pos hy]

theorem nodup_dates_sortByDate {sub : List Row}
    (hnd : (sub.map (fun r => r.date)).Nodup) :
    ((sortByDate sub).map (fun r => r.date)).Nodup :=
  (((sortByDate_perm sub).map (fun r => r.date)).nodup_iff).mpr hnd

theorem latestScaled_select {sub : List Row} {ty tm : Option Int} {p : Row → Bool}
    (hy : truthy ty = true)
    (hnd : (sub.map (fun r => r.date)).Nodup)
    (hp : periodRows (sortByDate sub) (ty.getD 0) tm = (sortByDate sub).filter p)
    (hne : ∃ r ∈ sub, p r = true) :
    ∃ r ∈ sub, p r = true ∧ (∀ r2 ∈ sub, p r2 = true → Date.le r2.date r.date) ∧
      latestScaled sub ty tm = some (mmScale (fullVals sub) r.value) := by
  have hnds := nodup_dates_sortByDate hnd
  have hne2 : (sortByDate sub).filter p ≠ [] := by
    obtain ⟨r, hr, hpr⟩ := hne
    intro hnil
    have := List.filter_eq_nil_iff.mp hnil r (mem_sortByDate.mpr hr)
    exact this hpr
  rcases hmax : maxDateOf ((sortByDate sub).filter p) with _ | d
  · exact absurd hmax (maxDateOf_ne_none hne2)
  · obtain ⟨r, hfind, hrl, hpr, hrd, hub⟩ := find_max_of_filter hnds hmax
    refine ⟨r, mem_sortByDate.mp hrl, hpr, ?_, ?_⟩
    · intro r2 h2 hp2
      rw [hrd]
      exact hub r2 (mem_sortByDate.mpr h2) hp2
    · rw [latestScaled_pos hy, hp, hmax]
      dsimp only
      rw [hfind]

theorem latestScaled_skip {sub : List Row} {ty tm : Option Int} {p : Row → Bool}
    (hy : truthy ty = true)
    (hp : periodRows (sortByDate sub) (ty.getD 0) tm = (sortByDate sub).filter p)
    (hne : ∀ r ∈ sub, p r = false) :
    latestScaled sub ty tm = none := by
  have hnil : (sortByDate sub).filter p = [] := by
    rw [List.filter_eq_nil_iff]
    intro r hr
    rw [hne r (mem_sortByDate.mp hr)]
    simp
  rw [latestScaled_pos hy, hp, hnil, maxDateOf]

theorem truthy_some {n : Int} (h : n ≠ 0) : truthy (some n) = true := by
  simp [truthy, h]

theorem periodRows_eq_exact {sorted : List Row} {y m : Int} (hm : m ≠ 0)
    (hne : sorted.filter (fun r => decide (r.date.year = y ∧ r.date.month = m)) ≠ []) :
    periodRows sorted y (some m) =
      sorted.filter (fun r => decide (r.date.year = y ∧ r.date.month = m)) := by
  rw [periodRows, if_pos (truthy_some hm)]
  simp only [Option.getD_some]
  rw [if_neg (by simpa [List.isEmpty_iff] using hne)]

theorem periodRows_eq_fallback {sorted : List Row} {y m : Int} (hm : m ≠ 0)
    (hemp : sorted.filter (fun r => decide (r.date.year = y ∧ r.date.month = m)) = []) :
    periodRows sorted y (some m) =
      sorted.filter (fun r => decide (r.date.year = y ∧ r.date.month ≤ m)) := by
  rw [periodRows, if_pos (truthy_some hm)]
  simp only [Option.getD_some]
  rw [if_pos (by simpa [List.isEmpty_iff] using hemp)]

theorem periodRows_eq_year {sorted : List Row} {y : Int} {tm : Option Int}
    (htm : truthy tm = false) :
    periodRows sorted y tm = sorted.filter (fun r => decide (r.date.year = y)) := by
  rw [periodRows, htm]
  simp

theorem filterMap_eq_map_of_forall_some {α β : Type} {f : α → Option β}
    {g : α → β} {l : List α} (h : ∀ a ∈ l, f a = some (g a)) :
    l.filterMap f = l.map g := by
  induction l with
  | nil => simp
  | cons x xs ih =>
      rw [List.filterMap_cons, h x (List.mem_cons_self x xs), List.map_cons,
        ih (fun a ha => h a (List.mem_cons_of_mem x ha))]

theorem mem_monthKeys {df : List Row} {k : Int × Int} :
    k ∈ monthKeys df ↔ ∃ r ∈ df, monthKeyOf r.date = k := by
  rw [monthKeys, mem_uniqueFirst, List.mem_map]
  constructor
  · rintro ⟨r, hr, he⟩; exact ⟨r, hr, he⟩
  · rintro ⟨r, hr, he⟩; exact ⟨r, hr, he⟩

theorem monthMax_spec {df : List Row} {k : Int × Int} (h : k ∈ monthKeys df) :
    maxDateOf (monthRows df k) = some (monthMax df k) ∧
      monthKeyOf (monthMax df k) = k ∧
      (∃ r ∈ df, r.date = monthMax df k) ∧
      ∀ r ∈ df, monthKeyOf r.date = k → Date.le r.date (monthMax df k) := by
  obtain ⟨r0, hr0, hk0⟩ := mem_monthKeys.mp h
  have hne : monthRows df k ≠ [] := by
    intro hnil
    have := List.filter_eq_nil_iff.mp hnil r0 hr0
    simp only [monthKeyOf] at hk0
    exact this (by simp [hk0])
  rcases hmax : maxDateOf (monthRows df k) with _ | d
  · exact absurd hmax (maxDateOf_ne_none hne)
  · have hmm : monthMax df k = d := by rw [monthMax, hmax]; rfl
    have hmax2 : maxDateOf (monthRows df k) = some (monthMax df k) := by
      rw [hmax, hmm]
    obtain ⟨⟨rd, hrdm, hrdd⟩, hub⟩ := maxDateOf_eq_some hmax2
    obtain ⟨hrdf, hrdk⟩ := List.mem_filter.mp hrdm
    have hkd : monthKeyOf (monthMax df k) = k := by
      have h2 : (rd.date.year, rd.date.month) = k := by simpa using hrdk
      rw [← hrdd, monthKeyOf]
      exact h2
    refine ⟨by rw [hmm], hkd, ⟨rd, hrdf, hrdd⟩, ?_⟩
    intro r hr hk
    apply hub
    refine List.mem_filter.mpr ⟨hr, ?_⟩
    simp only [monthKeyOf] at hk
    simp [hk]

theorem monthlyDates_eq_map (df : List Row) :
    monthlyDates df =
      List.insertionSort Date.le ((monthKeys df).map (monthMax df)) := by
  rw [monthlyDates]
  congr 1
  apply filterMap_eq_map_of_forall_some
  intro k hk
  exact (monthMax_spec hk).1

theorem mem_monthlyDates {df : List Row} {d : Date} :
    d ∈ monthlyDates df ↔ ∃ k ∈ monthKeys df, monthMax df k = d := by
  rw [monthlyDates_eq_map]
  rw [(List.perm_insertionSort Date.le _).mem_iff]
  simp [List.mem_map]

theorem monthlyDates_spec {df : List Row} {d : Date} (h : d ∈ monthlyDates df) :
    (∃ r ∈ df, r.date = d) ∧
      ∀ r ∈ df, monthKeyOf r.date = monthKeyOf d → Date.le r.date d := by
  obtain ⟨k, hk, hmm⟩ := mem_monthlyDates.mp h
  obtain ⟨_, hkey, hmem, hub⟩ := monthMax_spec hk
  rw [hmm] at hkey hmem hub
  exact ⟨hmem, fun r hr hkr => hub r hr (hkey ▸ hkr)⟩

theorem monthlyDates_keys_nodup (df : List Row) :
    ((monthlyDates df).map monthKeyOf).Nodup := by
  have hperm : ((monthlyDates df).map monthKeyOf).Perm
      (((monthKeys df).map (monthMax df)).map monthKeyOf) := by
    rw [monthlyDates_eq_map]
    exact (List.perm_insertionSort Date.le _).map monthKeyOf
  rw [hperm.nodup_iff, List.map_map]
  have : (monthKeys df).map (monthKeyOf ∘ monthMax df) = monthKeys df := by
    have := List.map_congr_left (l := monthKeys df)
      (f := monthKeyOf ∘ monthMax df) (g := id)
      (fun k hk => (monthMax_spec hk).2.1)
    rw [this, List.map_id]
  rw [this]
  exact nodup_uniqueFirst _

theorem pairwise_ne_of_nodup_map {α β : Type} {f : α → β} {l : List α}
    (h : (l.map f).Nodup) : l.Pairwise (fun a b => f a ≠ f b) := by
  induction l with
  | nil => exact List.Pairwise.nil
  | cons x xs ih =>
      rw [List.map_cons, List.nodup_cons] at h
      refine List.Pairwise.cons ?_ (ih h.2)
      intro b hb he
      exact h.1 (he ▸ List.mem_map_of_mem f hb)

theorem monthlyDates_sorted (df : List Row) :
    List.Sorted Date.le (monthlyDates df) := by
  rw [monthlyDates]
  exact List.sorted_insertionSort Date.le _

theorem monthlyDates_nodup (df : List Row) : (monthlyDates df).Nodup :=
  List.Nodup.of_map monthKeyOf (monthlyDates_keys_nodup df)

theorem monthlyDates_pairwise (df : List Row) :
    (monthlyDates df).Pairwise
      (fun a b => (Date.le a b ∧ a ≠ b) ∧ monthKeyOf a ≠ monthKeyOf b) := by
  have h1 : (monthlyDates df).Pairwise Date.le := monthlyDates_sorted df
  have h2 : (monthlyDates df).Pairwise (fun a b => a ≠ b) :=
    (monthlyDates_nodup df)
  have h3 : (monthlyDates df).Pairwise (fun a b => monthKeyOf a ≠ monthKeyOf b) :=
    pairwise_ne_of_nodup_map (monthlyDates_keys_nodup df)
  exact ((h1.and h2).and h3)

theorem mem_seriesList {df : List Row} {name : String} :
    name ∈ seriesList df ↔ ∃ r ∈ df, r.series = name := by
  rw [seriesList, mem_uniqueFirst, List.mem_map]

theorem hcontrib_isSome_of_owner {df : List Row} {d : Date} {r0 : Row}
    (hr0 : r0 ∈ df) (hr0d : Date.le r0.date d) :
    ∃ x, hcontrib df d r0.series = some x := by
  have hmem1 : r0 ∈ rowsOf (df.filter (fun r => decide (Date.le r.date d))) r0.series := by
    rw [rowsOf]
    refine List.mem_filter.mpr ⟨List.mem_filter.mpr ⟨hr0, by simpa using hr0d⟩, by simp⟩
  have hne1 : sortByDate (rowsOf (df.filter (fun r => decide (Date.le r.date d))) r0.series) ≠ [] := by
    intro hnil
    rw [← List.isEmpty_iff] at hnil
    have := mem_sortByDate.mpr hmem1
    rw [List.isEmpty_iff] at hnil
    rw [hnil] at this
    simp at this
  have hne2 : rowsOf df r0.series ≠ [] := by
    intro hnil
    have : r0 ∈ rowsOf df r0.series :=
      List.mem_filter.mpr ⟨hr0, by simp⟩
    rw [hnil] at this
    simp at this
  rcases hlast : (sortByDate (rowsOf (df.filter (fun r => decide (Date.le r.date d))) r0.series)).getLast? with _ | rl
  · rw [← List.getLast?_isSome] at hne1
    rw [hlast] at hne1
    simp at hne1
  · refine ⟨orient r0.series (mmScale (fullVals (rowsOf df r0.series)) rl.value), ?_⟩
    rw [hcontrib]
    rw [if_neg (by simp [List.isEmpty_eq_false, hne1, hne2])]
    rw [hlast]
    rfl

theorem historyScoreDict_ne_nil {df : List Row} {d : Date}
    (hd : ∃ r ∈ df, Date.le r.date d) : historyScoreDict df d ≠ [] := by
  obtain ⟨r0, hr0, hr0d⟩ := hd
  obtain ⟨x, hx⟩ := hcontrib_isSome_of_owner hr0 hr0d
  have hname : r0.series ∈ seriesList df := mem_seriesList.mpr ⟨r0, hr0, rfl⟩
  have : (r0.series, x) ∈ historyScoreDict df d := by
    rw [historyScoreDict]
    exact List.mem_filterMap.mpr ⟨r0.series, hname, by rw [hx]; rfl⟩
  exact List.ne_nil_of_mem this

theorem history_eq_map (w : List (String × ℚ)) (df : List Row) :
    calculate_liquidity_score_history w df =
      (monthlyDates df).map
        (fun d => ⟨d, round1 (weightedSum w (historyScoreDict df d) * 100)⟩) := by
  rw [calculate_liquidity_score_history]
  apply filterMap_eq_map_of_forall_some
  intro d hd
  obtain ⟨r0, hr0, hr0d⟩ := (monthlyDates_spec hd).1
  have hown : Date.le r0.date d := hr0d ▸ Date.le_refl r0.date
  have h1 : (df.filter (fun r => decide (Date.le r.date d))).isEmpty = false := by
    rw [List.isEmpty_eq_false]
    intro hnil
    have := List.filter_eq_nil_iff.mp hnil r0 hr0
    simp only [decide_eq_true_eq] at this
    exact this hown
  have h2 : (historyScoreDict df d).isEmpty = false := by
    rw [List.isEmpty_eq_false]
    exact historyScoreDict_ne_nil ⟨r0, hr0, hown⟩
  simp only [h1, Bool.false_eq_true, if_false, h2]

theorem historyScoreDict_keys_nodup (df : List Row) (d : Date) :
    ((historyScoreDict df d).map Prod.fst).Nodup := by
  rw [historyScoreDict]
  exact List.Sublist.nodup (keyedFilterMap_keys_sublist _ _) (nodup_uniqueFirst _)

theorem hcontrib_bounds {df : List Row} {d : Date} {name : String} {x : ℚ}
    (h : hcontrib df d name = some x) : 0 ≤ x ∧ x ≤ 1 := by
  rw [hcontrib] at h
  by_cases hc : ((sortByDate (rowsOf (df.filter (fun r => decide (Date.le r.date d))) name)).isEmpty
      || (rowsOf df name).isEmpty) = true
  · rw [if_pos hc] at h
    exact absurd h (by simp)
  · rw [if_neg hc] at h
    rcases hlast : (sortByDate (rowsOf (df.filter (fun r => decide (Date.le r.date d))) name)).getLast? with _ | rl
    · rw [hlast] at h
      exact absurd h (by simp)
    · rw [hlast] at h
      simp only [Option.map_some'] at h
      injection h with h
      have hrl : rl ∈ rowsOf df name := by
        have hm : rl ∈ sortByDate (rowsOf (df.filter (fun r => decide (Date.le r.date d))) name) := by
          obtain ⟨ys, hys⟩ := List.getLast?_eq_some_iff.mp hlast
          rw [hys]
          exact List.mem_append_right ys (List.mem_cons_self rl [])
        rw [mem_sortByDate, rowsOf] at hm
        obtain ⟨hm1, hm2⟩ := List.mem_filter.mp hm
        exact List.mem_filter.mpr ⟨(List.mem_filter.mp hm1).1, hm2⟩
      obtain ⟨h0, h1⟩ := mmScale_bounds (mem_fullVals hrl)
      rw [← h]
      exact orient_bounds h0 h1

theorem mem_historyScoreDict_bounds {df : List Row} {d : Date}
    {p : String × ℚ} (h : p ∈ historyScoreDict df d) : 0 ≤ p.2 ∧ p.2 ≤ 1 := by
  rw [historyScoreDict] at h
  obtain ⟨name, _, hsome⟩ := List.mem_filterMap.mp h
  rcases hc : hcontrib df d name with _ | x
  · rw [hc] at hsome; exact absurd hsome (by simp)
  · rw [hc] at hsome
    simp only [Option.map_some'] at hsome
    injection hsome with hsome
    have := hcontrib_bounds hc
    rw [← hsome]
    exact this

theorem sortByDate_nil : sortByDate [] = [] := rfl

theorem latestScaled_nil (ty tm : Option Int) : latestScaled [] ty tm = none := by
  rw [latestScaled]
  split
  · have hp : periodRows (sortByDate []) (ty.getD 0) tm = [] := by
      rw [sortByDate_nil, periodRows]
      split
      · simp
      · simp
    rw [hp, maxDateOf]
  · rw [sortByDate_nil]
    rfl

theorem rowsOf_eq_nil_of_not_mem {df : List Row} {name : String}
    (h : name ∉ seriesList df) : rowsOf df name = [] := by
  rw [rowsOf, List.filter_eq_nil_iff]
  intro r hr
  simp only [decide_eq_true_eq]
  intro he
  exact h (mem_seriesList.mpr ⟨r, hr, he⟩)

theorem contrib_congr {df1 df2 : List Row} {ty tm : Option Int} {name : String}
    (h : rowsOf df1 name = rowsOf df2 name) :
    contrib df1 ty tm name = contrib df2 ty tm name := by
  rw [contrib, contrib, h]

theorem weightedSum_keyedFilterMap (w : List (String × ℚ))
    (g : String → Option ℚ) (l : List String) :
    weightedSum w (l.filterMap (fun n => (g n).map (fun x => (n, x)))) =
      (l.map (fun n => (g n).getD 0 * wval w n)).sum := by
  induction l with
  | nil => simp [weightedSum]
  | cons n ns ih =>
      rw [List.filterMap_cons, List.map_cons, List.sum_cons]
      rcases hg : g n with _ | x
      · simp only [Option.map_none', hg, Option.getD_none, zero_mul, zero_add]
        exact ih
      · simp only [Option.map_some', hg, Option.getD_some]
        rw [weightedSum, List.map_cons, List.sum_cons, ← weightedSum]
        rw [ih]
        congr 1
        rcases hl : wlookup w n with _ | wt
        · simp [wval, hl]
        · simp [wval, hl]

theorem weightedSum_score_dict (w : List (String × ℚ)) (df : List Row)
    (ty tm : Option Int) :
    weightedSum w (score_dict df ty tm) =
      ((seriesList df).map
        (fun n => (contrib df ty tm n).getD 0 * wval w n)).sum := by
  rw [score_dict]
  exact weightedSum_keyedFilterMap w _ _

theorem weightedSum_nil (w : List (String × ℚ)) : weightedSum w [] = 0 := by
  rw [weightedSum]
  simp

theorem weightedSum_all_zero {w sd : List (String × ℚ)}
    (h : ∀ p ∈ sd, p.2 = 0) : weightedSum w sd = 0 := by
  rw [weightedSum_eq_sum_wval]
  apply List.sum_eq_zero
  intro x hx
  obtain ⟨p, hp, hpe⟩ := List.mem_map.mp hx
  rw [← hpe, h p hp, zero_mul]

theorem weightedSum_all_one {w sd : List (String × ℚ)}
    (h : ∀ p ∈ sd, p.2 = 1) : weightedSum w sd = activeWeightSum w sd := by
  rw [weightedSum_eq_sum_wval, activeWeightSum]
  congr 1
  apply List.map_congr_left
  intro p hp
  rw [h p hp, one_mul]

theorem round1_zero : round1 0 = 0 := by
  norm_num [round1, round_eq]

theorem round1_hundred : round1 100 = 100 := by
  norm_num [round1, round_eq]

theorem round1_range {x : ℚ} (h0 : 0 ≤ x) (h1 : x ≤ 100) :
    0 ≤ round1 x ∧ round1 x ≤ 100 := by
  obtain ⟨ha, hb⟩ := round1_bounds h0 h1
  norm_num [round_eq] at ha hb
  exact ⟨ha, hb⟩

theorem indicator_weights_nonneg : ∀ q ∈ indicator_weights, 0 ≤ q.2 := by
  intro q hq
  simp only [indicator_weights, List.mem_cons, List.not_mem_nil, or_false] at hq
  rcases hq with rfl | rfl | rfl | rfl | rfl | rfl <;> norm_num

theorem indicator_weights_keys_nodup : (indicator_weights.map Prod.fst).Nodup := by
  decide

theorem indicator_weights_total : (indicator_weights.map Prod.snd).sum = 1 := by
  rw [indicator_weights]
  norm_num

theorem score_range (df : List Row) (ty tm : Option Int) :
    0 ≤ calculate_liquidity_score indicator_weights df ty tm ∧
      calculate_liquidity_score indicator_weights df ty tm ≤ 100 := by
  have h0 : 0 ≤ weightedSum indicator_weights (score_dict df ty tm) :=
    weightedSum_nonneg indicator_weights_nonneg
      (fun p hp => (mem_score_dict_bounds hp).1)
  have hb : weightedSum indicator_weights (score_dict df ty tm) ≤ 1 := by
    have := weightedSum_le_of_nodup indicator_weights_keys_nodup
      indicator_weights_nonneg (score_dict_keys_nodup df ty tm)
      (fun p hp => mem_score_dict_bounds hp)
    rw [indicator_weights_total] at this
    exact this
  rw [calculate_liquidity_score]
  exact round1_range (by nlinarith) (by nlinarith)

theorem history_score_range (df : List Row) (d : Date) :
    0 ≤ round1 (weightedSum indicator_weights (historyScoreDict df d) * 100) ∧
      round1 (weightedSum indicator_weights (historyScoreDict df d) * 100) ≤ 100 := by
  have h0 : 0 ≤ weightedSum indicator_weights (historyScoreDict df d) :=
    weightedSum_nonneg indicator_weights_nonneg
      (fun p hp => (mem_historyScoreDict_bounds hp).1)
  have hb : weightedSum indicator_weights (historyScoreDict df d) ≤ 1 := by
    have := weightedSum_le_of_nodup indicator_weights_keys_nodup
      indicator_weights_nonneg (historyScoreDict_keys_nodup df d)
      (fun p hp => mem_historyScoreDict_bounds hp)
    rw [indicator_weights_total] at this
    exact this
  exact round1_range (by nlinarith) (by nlinarith)

theorem latestScaled_congr_period {sub : List Row} {ty : Option Int}
    {tm1 tm2 : Option Int}
    (h : periodRows (sortByDate sub) (ty.getD 0) tm1 =
         periodRows (sortByDate sub) (ty.getD 0) tm2) :
    latestScaled sub ty tm1 = latestScaled sub ty tm2 := by
  by_cases hty : truthy ty = true
  · rw [latestScaled_pos hty, latestScaled_pos hty, h]
  · rw [latestScaled, latestScaled,
      if_neg (by simp [hty]), if_neg (by simp [hty])]

theorem hcontrib_eq_some {df : List Row} {d : Date} {name : String} {x : ℚ}
    (h : hcontrib df d name = some x) :
    ∃ r ∈ df, r.series = name ∧ Date.le r.date d ∧
      x = orient name (mmScale (fullVals (rowsOf df name)) r.value) := by
  rw [hcontrib] at h
  by_cases hc : ((sortByDate (rowsOf (df.filter (fun r => decide (Date.le r.date d))) name)).isEmpty
      || (rowsOf df name).isEmpty) = true
  · rw [if_pos hc] at h
    exact absurd h (by simp)
  · rw [if_neg hc] at h
    rcases hlast : (sortByDate (rowsOf (df.filter (fun r => decide (Date.le r.date d))) name)).getLast? with _ | rl
    · rw [hlast] at h
      exact absurd h (by simp)
    · rw [hlast] at h
      simp only [Option.map_some'] at h
      injection h with h
      have hm : rl ∈ sortByDate (rowsOf (df.filter (fun r => decide (Date.le r.date d))) name) := by
        obtain ⟨ys, hys⟩ := List.getLast?_eq_some_iff.mp hlast
        rw [hys]
        exact List.mem_append_right ys (List.mem_cons_self rl [])
      rw [mem_sortByDate, rowsOf] at hm
      obtain ⟨hm1, hm2⟩ := List.mem_filter.mp hm
      obtain ⟨hmdf, hmd⟩ := List.mem_filter.mp hm1
      exact ⟨rl, hmdf, by simpa using hm2, by simpa using hmd, h.symm⟩

/-! ### Claim theorems -/

/-- C2 counterexample: a query for a year with no data produces an empty score
dict, and the source then returns the numeric score 0 — there is no
`INSUFFICIENT_DATA` sentinel; the zero-contributor outcome is reported exactly
as the numeric score 0. -/
theorem C2_counterexample :
    score_dict dfC2 (some 2025) none = [] ∧
      calculate_liquidity_score indicator_weights dfC2 (some 2025) none = 0 := by
  have h : score_dict dfC2 (some 2025) none = [] := by
    simp [score_dict, seriesList, uniqueFirst, uniqueFirstAux, rowsOf, contrib,
      latestScaled, sortByDate, List.insertionSort, List.orderedInsert,
      periodRows, truthy, maxDateOf, mmScale, minValue, maxValue, fullVals,
      orient, inverted_indicators, dfC2, List.filterMap_cons, Option.map,
      Function.comp, List.find?, List.foldl, List.filter_cons]
  refine ⟨h, ?_⟩
  rw [calculate_liquidity_score, h, weightedSum_nil, zero_mul, round1_zero]

/-- C2 (amended): for every query in which zero indicators produce a value
(empty score dict), `calculate_liquidity_score` returns the numeric score 0
(`round(0 * 100, 1)`), with no distinguishable sentinel; a caller cannot tell
this outcome apart from a true score of 0. -/
theorem C2_amended_zero_contributors (w : List (String × ℚ)) (df : List Row)
    (ty tm : Option Int) (h : score_dict df ty tm = []) :
    calculate_liquidity_score w df ty tm = 0 := by
  rw [calculate_liquidity_score, h, weightedSum_nil, zero_mul, round1_zero]

/-- C2 witness: the empty store yields an empty score dict and score 0. -/
theorem C2_witness :
    score_dict [] none none = [] ∧
      calculate_liquidity_score indicator_weights [] none none = 0 :=
  ⟨rfl, C2_amended_zero_contributors indicator_weights [] none none rfl⟩

/-- C4 counterexample: with the weight configuration `{A ↦ 2}`, every
contributing indicator has oriented scaled value 1.0, yet the composite score
is 200.0, not 100.0 — the all-ones score equals 100 only when the active
weights sum to 1, which the claim's universally quantified weight
configuration does not guarantee. -/
theorem C4_counterexample :
    (score_dict dfC4 none none).all (fun p => p.2 == 1) = true ∧
      calculate_liquidity_score [("A", 2)] dfC4 none none = 200 := by
  have h : score_dict dfC4 none none = [("A", 1)] := by
    simp [score_dict, seriesList, uniqueFirst, uniqueFirstAux, rowsOf, contrib,
      latestScaled, sortByDate, List.insertionSort, List.orderedInsert,
      periodRows, truthy, maxDateOf, mmScale, minValue, maxValue, fullVals,
      orient, inverted_indicators, dfC4, List.filterMap_cons, Option.map,
      Function.comp, List.find?, List.foldl, List.filter_cons, rowLe, Date.le]
  constructor
  · rw [h]; simp
  · rw [calculate_liquidity_score, h]
    simp [weightedSum, wlookup]
    norm_num [round1, round_eq]

/-- C4 (amended): if every contributing indicator's oriented scaled value is
1.0, the composite score is 100.0 provided the weights of the contributing
indicators sum to 1 (as the source's configuration does); if every value is
0.0, the score is 0.0 for every weight configuration. -/
theorem C4_amended_extremes (w : List (String × ℚ)) (df : List Row)
    (ty tm : Option Int) :
    ((∀ p ∈ score_dict df ty tm, p.2 = 1) →
      activeWeightSum w (score_dict df ty tm) = 1 →
      calculate_liquidity_score w df ty tm = 100) ∧
    ((∀ p ∈ score_dict df ty tm, p.2 = 0) →
      calculate_liquidity_score w df ty tm = 0) := by
  constructor
  · intro h1 hsum
    rw [calculate_liquidity_score, weightedSum_all_one h1, hsum, one_mul,
      round1_hundred]
  · intro h0
    rw [calculate_liquidity_score, weightedSum_all_zero h0, zero_mul,
      round1_zero]

/-- C4 witness: a unit-weight configuration at the scaled extremes gives 100.0
at the all-ones query and 0.0 at the all-zeros query. -/
theorem C4_witness :
    calculate_liquidity_score [("A", 1)] dfC4 none none = 100 ∧
      calculate_liquidity_score [("A", 1)] dfC4 (some 2020) (some 1) = 0 := by
  have h : score_dict dfC4 none none = [("A", 1)] := by
    simp [score_dict, seriesList, uniqueFirst, uniqueFirstAux, rowsOf, contrib,
      latestScaled, sortByDate, List.insertionSort, List.orderedInsert,
      periodRows, truthy, maxDateOf, mmScale, minValue, maxValue, fullVals,
      orient, inverted_indicators, dfC4, List.filterMap_cons, Option.map,
      Function.comp, List.find?, List.foldl, List.filter_cons, rowLe, Date.le]
  have h0 : score_dict dfC4 (some 2020) (some 1) = [("A", 0)] := by
    simp [score_dict, seriesList, uniqueFirst, uniqueFirstAux, rowsOf, contrib,
      latestScaled, sortByDate, List.insertionSort, List.orderedInsert,
      periodRows, truthy, maxDateOf, mmScale, minValue, maxValue, fullVals,
      orient, inverted_indicators, dfC4, List.filterMap_cons, Option.map,
      Function.comp, List.find?, List.foldl, List.filter_cons, rowLe, Date.le]
  constructor
  · refine (C4_amended_extremes [("A", 1)] dfC4 none none).1 ?_ ?_
    · rw [h]; simp
    · rw [h, activeWeightSum]; simp [wval, wlookup]
  · refine (C4_amended_extremes [("A", 1)] dfC4 (some 2020) (some 1)).2 ?_
    rw [h0]; simp

/-- C6: every numeric point-in-time composite score, and every score of the
history output, lies in the closed interval [0, 100] (with the source's
weight table, whose weights are nonnegative and sum to 1). -/
theorem C6_scores_in_range (df : List Row) (ty tm : Option Int) :
    (0 ≤ calculate_liquidity_score indicator_weights df ty tm ∧
      calculate_liquidity_score indicator_weights df ty tm ≤ 100) ∧
    ∀ e ∈ calculate_liquidity_score_history indicator_weights df,
      0 ≤ e.score ∧ e.score ≤ 100 := by
  refine ⟨score_range df ty tm, ?_⟩
  intro e he
  rw [history_eq_map] at he
  obtain ⟨d, _, hde⟩ := List.mem_map.mp he
  rw [← hde]
  exact history_score_range df d

/-- C6 witness: bounds instantiated on a concrete store and a concrete history
entry. -/
theorem C6_witness :
    0 ≤ (HistEntry.mk ⟨2020, 1, 1⟩ 0).score ∧
      (HistEntry.mk ⟨2020, 1, 1⟩ 0).score ≤ 100 := by
  refine (C6_scores_in_range dfC6 none none).2 ⟨⟨2020, 1, 1⟩, 0⟩ ?_
  have h : calculate_liquidity_score_history indicator_weights dfC6 =
      [⟨⟨2020, 1, 1⟩, 0⟩] := by
    simp [calculate_liquidity_score_history, monthlyDates, monthKeys,
      monthRows, uniqueFirst, uniqueFirstAux, maxDateOf, List.insertionSort,
      List.orderedInsert, historyScoreDict, hcontrib, seriesList, rowsOf,
      sortByDate, fullVals, mmScale, minValue, maxValue, orient,
      inverted_indicators, weightedSum, wlookup, dfC6, List.filterMap_cons,
      Option.map, Function.comp, List.foldl, List.filter_cons, Date.le, rowLe,
      truthy, indicator_weights]
    norm_num [round1, round_eq]
  rw [h]
  simp

/-- C10: the branch of the history builder that would omit a month is
unreachable — the history is exactly one entry per representative monthly
date; in particular every (year, month) present in the data yields an entry
(also when only unweighted indicators have data in that month, the entry being
computed from whatever weighted contributions exist up to that date). -/
theorem C10_history_no_month_dropped (w : List (String × ℚ)) (df : List Row) :
    calculate_liquidity_score_history w df =
      (monthlyDates df).map
        (fun d => ⟨d, round1 (weightedSum w (historyScoreDict df d) * 100)⟩) ∧
    ∀ k ∈ monthKeys df, ∃ e ∈ calculate_liquidity_score_history w df,
      monthKeyOf e.date = k := by
  refine ⟨history_eq_map w df, ?_⟩
  intro k hk
  have hd : monthMax df k ∈ monthlyDates df := mem_monthlyDates.mpr ⟨k, hk, rfl⟩
  refine ⟨⟨monthMax df k,
      round1 (weightedSum w (historyScoreDict df (monthMax df k)) * 100)⟩,
    ?_, (monthMax_spec hk).2.1⟩
  rw [history_eq_map]
  exact List.mem_map.mpr ⟨monthMax df k, hd, rfl⟩

/-- C10 witness: the single month of a one-row store yields an entry. -/
theorem C10_witness :
    ∃ e ∈ calculate_liquidity_score_history [("A", 1)] dfC10,
      monthKeyOf e.date = (2020, 1) :=
  (C10_history_no_month_dropped [("A", 1)] dfC10).2 (2020, 1) (by decide)

/-- C5: the history output is strictly increasing in date with pairwise
distinct calendar months (hence at most one entry per month), and each entry's
date is the maximum observation date of its (year, month) bucket over the
union of all indicators' rows. -/
theorem C5_history_month_entries (w : List (String × ℚ)) (df : List Row) :
    (calculate_liquidity_score_history w df).Pairwise
      (fun a b => (Date.le a.date b.date ∧ a.date ≠ b.date) ∧
        monthKeyOf a.date ≠ monthKeyOf b.date) ∧
    ∀ e ∈ calculate_liquidity_score_history w df,
      (∃ r ∈ df, r.date = e.date) ∧
        ∀ r ∈ df, monthKeyOf r.date = monthKeyOf e.date →
          Date.le r.date e.date := by
  constructor
  · rw [history_eq_map, List.pairwise_map]
    exact monthlyDates_pairwise df
  · intro e he
    rw [history_eq_map] at he
    obtain ⟨d, hd, hde⟩ := List.mem_map.mp he
    rw [← hde]
    exact monthlyDates_spec hd

/-- C5 witness: the month-maximum property instantiated at the single entry of
a one-row store. -/
theorem C5_witness :
    (∃ r ∈ dfC10, r.date = (HistEntry.mk ⟨2020, 1, 5⟩ 0).date) ∧
      ∀ r ∈ dfC10,
        monthKeyOf r.date = monthKeyOf (HistEntry.mk ⟨2020, 1, 5⟩ 0).date →
        Date.le r.date (HistEntry.mk ⟨2020, 1, 5⟩ 0).date := by
  refine (C5_history_month_entries [("A", 1)] dfC10).2 ⟨⟨2020, 1, 5⟩, 0⟩ ?_
  have h : calculate_liquidity_score_history [("A", 1)] dfC10 =
      [⟨⟨2020, 1, 5⟩, 0⟩] := by
    simp [calculate_liquidity_score_history, monthlyDates, monthKeys,
      monthRows, uniqueFirst, uniqueFirstAux, maxDateOf, List.insertionSort,
      List.orderedInsert, historyScoreDict, hcontrib, seriesList, rowsOf,
      sortByDate, fullVals, mmScale, minValue, maxValue, orient,
      inverted_indicators, weightedSum, wlookup, dfC10, List.filterMap_cons,
      Option.map, Function.comp, List.foldl, List.filter_cons, Date.le, rowLe,
      truthy]
    norm_num [round1, round_eq]
  rw [h]
  simp

/-- C7: two stores that agree on the rows of every indicator whose weight is
nonzero (indicators with weight 0 or absent from the weight map may differ
arbitrarily) receive the same composite score for every as-of request. -/
theorem C7_zero_weight_noninterference (w : List (String × ℚ))
    (df1 df2 : List Row) (ty tm : Option Int)
    (h : ∀ name, wval w name ≠ 0 → rowsOf df1 name = rowsOf df2 name) :
    calculate_liquidity_score w df1 ty tm =
      calculate_liquidity_score w df2 ty tm := by
  rw [calculate_liquidity_score, calculate_liquidity_score]
  congr 2
  rw [weightedSum_score_dict, weightedSum_score_dict]
  have hf : ∀ n, (contrib df2 ty tm n).getD 0 * wval w n =
      (contrib df1 ty tm n).getD 0 * wval w n := by
    intro n
    by_cases hw : wval w n = 0
    · rw [hw, mul_zero, mul_zero]
    · rw [contrib_congr (h n hw)]
  have hmap2 : (seriesList df2).map
      (fun n => (contrib df2 ty tm n).getD 0 * wval w n) =
      (seriesList df2).map
        (fun n => (contrib df1 ty tm n).getD 0 * wval w n) :=
    List.map_congr_left (fun n _ => hf n)
  rw [hmap2]
  have hnil1 : ∀ n, n ∉ seriesList df1 →
      (contrib df1 ty tm n).getD 0 * wval w n = 0 := by
    intro n hn
    rw [contrib, rowsOf_eq_nil_of_not_mem hn, latestScaled_nil]
    simp
  have hnil2 : ∀ n, n ∉ seriesList df2 →
      (contrib df1 ty tm n).getD 0 * wval w n = 0 := by
    intro n hn
    by_cases hw : wval w n = 0
    · rw [hw, mul_zero]
    · rw [contrib, h n hw, rowsOf_eq_nil_of_not_mem hn, latestScaled_nil]
      simp
  have hnd1 : (seriesList df1).Nodup := nodup_uniqueFirst _
  have hnd2 : (seriesList df2).Nodup := nodup_uniqueFirst _
  rw [← List.sum_toFinset _ hnd1, ← List.sum_toFinset _ hnd2]
  have e1 : ∑ n ∈ (seriesList df1).toFinset,
      (contrib df1 ty tm n).getD 0 * wval w n =
      ∑ n ∈ ((seriesList df1).toFinset ∪ (seriesList df2).toFinset),
        (contrib df1 ty tm n).getD 0 * wval w n := by
    apply Finset.sum_subset Finset.subset_union_left
    intro n _ hn
    exact hnil1 n (by simpa [List.mem_toFinset] using hn)
  have e2 : ∑ n ∈ (seriesList df2).toFinset,
      (contrib df1 ty tm n).getD 0 * wval w n =
      ∑ n ∈ ((seriesList df1).toFinset ∪ (seriesList df2).toFinset),
        (contrib df1 ty tm n).getD 0 * wval w n := by
    apply Finset.sum_subset Finset.subset_union_right
    intro n _ hn
    exact hnil2 n (by simpa [List.mem_toFinset] using hn)
  rw [e1, e2]

/-- C7 witness: two stores differing only in the rows of the weight-0
indicator B score identically. -/
theorem C7_witness :
    calculate_liquidity_score [("A", 1), ("B", 0)] dfC7a none none =
      calculate_liquidity_score [("A", 1), ("B", 0)] dfC7b none none := by
  apply C7_zero_weight_noninterference
  intro name hw
  by_cases hA : name = "A"
  · subst hA; rfl
  · exfalso
    apply hw
    rw [wval, wlookup]
    rw [if_neg (by simpa using Ne.symm hA)]
    rw [wlookup]
    by_cases hB : name = "B"
    · rw [if_pos (by simpa using hB.symm)]; rfl
    · rw [if_neg (by simpa using Ne.symm hB), wlookup]; rfl

/-- C8: a degenerate reference range (observed min equals observed max, in
particular every constant series) scales every observed value to 0, the
scaler's divisor is never 0, and a constant series' selected point-in-time
value always scales to 0. -/
theorem C8_degenerate_range (vals : List ℚ) (c : ℚ) (sub : List Row)
    (ty tm : Option Int) :
    ((∀ x ∈ vals, x = c) → ∀ v ∈ vals, mmScale vals v = 0) ∧
    ((if maxValue vals - minValue vals = 0 then (1 : ℚ)
      else maxValue vals - minValue vals) ≠ 0) ∧
    ((∀ r ∈ sub, r.value = c) →
      ∀ x : ℚ, latestScaled sub ty tm = some x → x = 0) := by
  refine ⟨fun hall v hv => mmScale_const hall hv, mmScale_den_ne vals, ?_⟩
  intro hall x hx
  obtain ⟨r, hr, hxe⟩ := latestScaled_eq_some hx
  rw [hxe]
  apply mmScale_const (c := c) _ (mem_fullVals hr)
  intro y hy
  rw [fullVals] at hy
  obtain ⟨r2, hr2, he⟩ := List.mem_map.mp hy
  rw [← he]
  exact hall r2 (mem_sortByDate.mp hr2)

/-- C8 witness: the degenerate-range rule on the constant list [5, 5] and the
constant store. -/
theorem C8_witness :
    mmScale [(5 : ℚ), 5] 5 = 0 ∧ ((0 : ℚ) = 0) :=
  ⟨(C8_degenerate_range [(5 : ℚ), 5] 5 dfC8 (some 2020) none).1
      (by norm_num) 5 (by norm_num),
    (C8_degenerate_range [(5 : ℚ), 5] 5 dfC8 (some 2020) none).2.2
      (by intro r hr
          simp only [dfC8, List.mem_cons, List.not_mem_nil, or_false] at hr
          rcases hr with rfl | rfl <;> rfl)
      0
      (by simp [latestScaled, sortByDate, List.insertionSort,
            List.orderedInsert, periodRows, truthy, maxDateOf, mmScale,
            minValue, maxValue, fullVals, dfC8, List.find?, List.foldl,
            List.filter_cons, rowLe, Date.le])⟩

/-- C3: both the point-in-time scorer and the history builder scale the
selected value with the min-max range of the indicator's entire observed
history (`fullVals`, the whole series, not only rows at or before the as-of
date); consequently, on a concrete store, appending a 2021 observation changes
the score of a query for 2020 from 100.0 to 33.3. -/
theorem C3_full_range_normalization :
    (∀ (sub : List Row) (ty tm : Option Int) (x : ℚ),
        latestScaled sub ty tm = some x →
        ∃ r ∈ sub, x = mmScale (fullVals sub) r.value) ∧
    (∀ (df : List Row) (d : Date) (name : String) (x : ℚ),
        hcontrib df d name = some x →
        ∃ r ∈ df, r.series = name ∧ Date.le r.date d ∧
          x = orient name (mmScale (fullVals (rowsOf df name)) r.value)) ∧
    calculate_liquidity_score [("A", 1)] dfC3 (some 2020) (some 12) = 100 ∧
    calculate_liquidity_score [("A", 1)] (dfC3 ++ [rowC3])
      (some 2020) (some 12) = 333 / 10 ∧
    dfC3.all (fun r => decide (r.date.year ≤ 2020)) = true ∧
    rowC3.date.year = 2021 := by
  refine ⟨fun sub ty tm x hx => latestScaled_eq_some hx,
    fun df d name x hx => hcontrib_eq_some hx, ?_, ?_, by decide, rfl⟩
  · have h : score_dict dfC3 (some 2020) (some 12) = [("A", 1)] := by
      simp [score_dict, seriesList, uniqueFirst, uniqueFirstAux, rowsOf,
        contrib, latestScaled, sortByDate, List.insertionSort,
        List.orderedInsert, periodRows, truthy, maxDateOf, mmScale, minValue,
        maxValue, fullVals, orient, inverted_indicators, dfC3,
        List.filterMap_cons, Option.map, Function.comp, List.find?,
        List.foldl, List.filter_cons, rowLe, Date.le]
      norm_num [min_def, max_def]
    rw [calculate_liquidity_score, h]
    simp [weightedSum, wlookup]
    norm_num [round1, round_eq]
  · have h : score_dict (dfC3 ++ [rowC3]) (some 2020) (some 12) =
        [("A", 1 / 3)] := by
      simp [score_dict, seriesList, uniqueFirst, uniqueFirstAux, rowsOf,
        contrib, latestScaled, sortByDate, List.insertionSort,
        List.orderedInsert, periodRows, truthy, maxDateOf, mmScale, minValue,
        maxValue, fullVals, orient, inverted_indicators, dfC3, rowC3,
        List.filterMap_cons, Option.map, Function.comp, List.find?,
        List.foldl, List.filter_cons, rowLe, Date.le]
      norm_num
    rw [calculate_liquidity_score, h]
    simp [weightedSum, wlookup]
    norm_num [round1, round_eq]

/-- C3 witness: the structural conjunct instantiated on the concrete store:
the value selected for a December 2020 query is scaled against the full-series
range. -/
theorem C3_witness :
    ∃ r ∈ dfC3, (1 : ℚ) = mmScale (fullVals dfC3) r.value := by
  refine (C3_full_range_normalization).1 dfC3 (some 2020) (some 12) 1 ?_
  simp [latestScaled, sortByDate, List.insertionSort, List.orderedInsert,
    periodRows, truthy, maxDateOf, mmScale, minValue, maxValue, fullVals,
    dfC3, List.find?, List.foldl, List.filter_cons, rowLe, Date.le]
  norm_num [min_def, max_def]

/-- C1: for a year+month query (on a series with pairwise distinct observation
dates, Python-truthy year and month), the scorer selects the latest observation
of the exact (year, month) if one exists; otherwise the latest observation of
the same year at or before the requested month; otherwise the indicator is
skipped.  In particular, on a store with observations of A only in January and
March 2024, the February 2024 query scores from the January value (score 100.0)
rather than skipping the indicator. -/
theorem C1_month_query_selection (sub : List Row) (y m : Int)
    (hy : y ≠ 0) (hm : m ≠ 0)
    (hnd : (sub.map (fun r => r.date)).Nodup) :
    ((∃ r ∈ sub, r.date.year = y ∧ r.date.month = m) →
      ∃ r ∈ sub, (r.date.year = y ∧ r.date.month = m) ∧
        (∀ r2 ∈ sub, r2.date.year = y → r2.date.month = m →
          Date.le r2.date r.date) ∧
        latestScaled sub (some y) (some m) =
          some (mmScale (fullVals sub) r.value)) ∧
    ((¬ ∃ r ∈ sub, r.date.year = y ∧ r.date.month = m) →
      (∃ r ∈ sub, r.date.year = y ∧ r.date.month ≤ m) →
      ∃ r ∈ sub, (r.date.year = y ∧ r.date.month ≤ m) ∧
        (∀ r2 ∈ sub, r2.date.year = y → r2.date.month ≤ m →
          Date.le r2.date r.date) ∧
        latestScaled sub (some y) (some m) =
          some (mmScale (fullVals sub) r.value)) ∧
    ((¬ ∃ r ∈ sub, r.date.year = y ∧ r.date.month ≤ m) →
      latestScaled sub (some y) (some m) = none) ∧
    calculate_liquidity_score [("A", 1)] dfC1 (some 2024) (some 2) = 100 := by
  refine ⟨?_, ?_, ?_, ?_⟩
  · intro hne
    have hne' : ∃ r ∈ sub,
        (fun r => decide (r.date.year = y ∧ r.date.month = m)) r = true := by
      obtain ⟨r, hr, h1, h2⟩ := hne
      exact ⟨r, hr, by simp [h1, h2]⟩
    have hfil : (sortByDate sub).filter
        (fun r => decide (r.date.year = y ∧ r.date.month = m)) ≠ [] := by
      obtain ⟨r, hr, hp⟩ := hne'
      exact List.ne_nil_of_mem (List.mem_filter.mpr ⟨mem_sortByDate.mpr hr, hp⟩)
    obtain ⟨r, hr, hp, hub, heq⟩ := latestScaled_select (truthy_some hy) hnd
      (periodRows_eq_exact hm hfil) hne'
    simp only [decide_eq_true_eq] at hp
    refine ⟨r, hr, hp, ?_, heq⟩
    intro r2 h2 hy2 hm2
    exact hub r2 h2 (by simp [hy2, hm2])
  · intro hnex hne
    have hemp : (sortByDate sub).filter
        (fun r => decide (r.date.year = y ∧ r.date.month = m)) = [] := by
      rw [List.filter_eq_nil_iff]
      intro r hr hp
      simp only [decide_eq_true_eq] at hp
      exact hnex ⟨r, mem_sortByDate.mp hr, hp⟩
    have hne' : ∃ r ∈ sub,
        (fun r => decide (r.date.year = y ∧ r.date.month ≤ m)) r = true := by
      obtain ⟨r, hr, h1, h2⟩ := hne
      exact ⟨r, hr, by simp [h1, h2]⟩
    obtain ⟨r, hr, hp, hub, heq⟩ := latestScaled_select (truthy_some hy) hnd
      (periodRows_eq_fallback hm hemp) hne'
    simp only [decide_eq_true_eq] at hp
    refine ⟨r, hr, hp, ?_, heq⟩
    intro r2 h2 hy2 hm2
    exact hub r2 h2 (by simp [hy2, hm2])
  · intro hnofb
    have hemp : (sortByDate sub).filter
        (fun r => decide (r.date.year = y ∧ r.date.month = m)) = [] := by
      rw [List.filter_eq_nil_iff]
      intro r hr hp
      simp only [decide_eq_true_eq] at hp
      exact hnofb ⟨r, mem_sortByDate.mp hr, hp.1, le_of_eq hp.2⟩
    apply latestScaled_skip (truthy_some hy) (periodRows_eq_fallback hm hemp)
    intro r hr
    simp only [decide_eq_false_iff_not]
    intro hp
    exact hnofb ⟨r, hr, hp⟩
  · have h : score_dict dfC1 (some 2024) (some 2) = [("A", 1)] := by
      simp [score_dict, seriesList, uniqueFirst, uniqueFirstAux, rowsOf,
        contrib, latestScaled, sortByDate, List.insertionSort,
        List.orderedInsert, periodRows, truthy, maxDateOf, mmScale, minValue,
        maxValue, fullVals, orient, inverted_indicators, dfC1,
        List.filterMap_cons, Option.map, Function.comp, List.find?,
        List.foldl, List.filter_cons, rowLe, Date.le]
    rw [calculate_liquidity_score, h]
    simp [weightedSum, wlookup]
    norm_num [round1, round_eq]

/-- C1 witness: the fallback branch instantiated on the January/March 2024
store queried for February 2024: the selected observation is in 2024, in a
month at or before February, latest such, and its scaled value is returned. -/
theorem C1_witness :
    ∃ r ∈ dfC1, (r.date.year = 2024 ∧ r.date.month ≤ 2) ∧
      (∀ r2 ∈ dfC1, r2.date.year = 2024 → r2.date.month ≤ 2 →
        Date.le r2.date r.date) ∧
      latestScaled dfC1 (some 2024) (some 2) =
        some (mmScale (fullVals dfC1) r.value) :=
  (C1_month_query_selection dfC1 2024 2 (by decide) (by decide)
      (by decide)).2.1 (by decide) (by decide)

/-- C9 counterexample: a requested month outside 1–12 does NOT cause a
per-indicator skip: querying month 13 of 2024 on a store with January and
March 2024 data falls back to the year's latest observation and contributes
(score 100.0, one score-dict entry), whereas the claim requires the indicator
to be skipped (which would leave the score dict empty). -/
theorem C9_counterexample :
    calculate_liquidity_score [("A", 1)] dfC9 (some 2024) (some 13) = 100 ∧
      (score_dict dfC9 (some 2024) (some 13)).length = 1 := by
  have h : score_dict dfC9 (some 2024) (some 13) = [("A", 1)] := by
    simp [score_dict, seriesList, uniqueFirst, uniqueFirstAux, rowsOf,
      contrib, latestScaled, sortByDate, List.insertionSort,
      List.orderedInsert, periodRows, truthy, maxDateOf, mmScale, minValue,
      maxValue, fullVals, orient, inverted_indicators, dfC9,
      List.filterMap_cons, Option.map, Function.comp, List.find?,
      List.foldl, List.filter_cons, rowLe, Date.le]
  constructor
  · rw [calculate_liquidity_score, h]
    simp [weightedSum, wlookup]
    norm_num [round1, round_eq]
  · rw [h]
    rfl

/-- C9 (amended): the scorer never hard-faults on any requested period (it is
a total function); a requested year with no observations of an indicator skips
that indicator for every month argument; but a month outside 1–12 does not by
itself skip: a month above 12 degrades to the year-level query (latest
observation of the year), month 0 is Python-falsy and is treated as an absent
month (year-level query), and only a negative month skips the indicator. -/
theorem C9_amended_period_handling (sub : List Row) (y m : Int)
    (tm : Option Int) (hy : y ≠ 0) :
    ((∀ r ∈ sub, r.date.year ≠ y) → latestScaled sub (some y) tm = none) ∧
    (m > 12 → (∀ r ∈ sub, 1 ≤ r.date.month ∧ r.date.month ≤ 12) →
      latestScaled sub (some y) (some m) = latestScaled sub (some y) none) ∧
    (m < 0 → (∀ r ∈ sub, 1 ≤ r.date.month) →
      latestScaled sub (some y) (some m) = none) ∧
    latestScaled sub (some y) (some 0) = latestScaled sub (some y) none := by
  refine ⟨?_, ?_, ?_, ?_⟩
  · intro hyr
    by_cases htm : truthy tm = true
    · rcases tm with _ | m'
      · simp [truthy] at htm
      · have hm' : m' ≠ 0 := by simpa [truthy] using htm
        have hemp : (sortByDate sub).filter
            (fun r => decide (r.date.year = y ∧ r.date.month = m')) = [] := by
          rw [List.filter_eq_nil_iff]
          intro r hr hp
          simp only [decide_eq_true_eq] at hp
          exact hyr r (mem_sortByDate.mp hr) hp.1
        apply latestScaled_skip (truthy_some hy)
          (periodRows_eq_fallback hm' hemp)
        intro r hr
        simp only [decide_eq_false_iff_not]
        rintro ⟨h1, _⟩
        exact hyr r hr h1
    · rw [Bool.not_eq_true] at htm
      apply latestScaled_skip (truthy_some hy) (periodRows_eq_year htm)
      intro r hr
      simp only [decide_eq_false_iff_not]
      exact hyr r hr
  · intro h12 hmon
    have hm0 : m ≠ 0 := by omega
    have hemp : (sortByDate sub).filter
        (fun r => decide (r.date.year = y ∧ r.date.month = m)) = [] := by
      rw [List.filter_eq_nil_iff]
      intro r hr hp
      simp only [decide_eq_true_eq] at hp
      have := (hmon r (mem_sortByDate.mp hr)).2
      omega
    have hfb : (sortByDate sub).filter
        (fun r => decide (r.date.year = y ∧ r.date.month ≤ m)) =
        (sortByDate sub).filter (fun r => decide (r.date.year = y)) := by
      apply List.filter_congr
      intro r hr
      rw [decide_eq_decide]
      have := (hmon r (mem_sortByDate.mp hr)).2
      constructor
      · rintro ⟨h1, _⟩; exact h1
      · intro h1; exact ⟨h1, by omega⟩
    apply latestScaled_congr_period
    simp only [Option.getD_some]
    rw [periodRows_eq_fallback hm0 hemp, hfb,
      @periodRows_eq_year (sortByDate sub) y none rfl]
  · intro hneg hmon
    have hm0 : m ≠ 0 := by omega
    have hemp : (sortByDate sub).filter
        (fun r => decide (r.date.year = y ∧ r.date.month = m)) = [] := by
      rw [List.filter_eq_nil_iff]
      intro r hr hp
      simp only [decide_eq_true_eq] at hp
      have := hmon r (mem_sortByDate.mp hr)
      omega
    apply latestScaled_skip (truthy_some hy) (periodRows_eq_fallback hm0 hemp)
    intro r hr
    simp only [decide_eq_false_iff_not]
    rintro ⟨_, h2⟩
    have := hmon r hr
    omega
  · apply latestScaled_congr_period
    simp only [Option.getD_some]
    rw [@periodRows_eq_year (sortByDate sub) y (some 0) (by simp [truthy]),
      @periodRows_eq_year (sortByDate sub) y none rfl]

/-- C9 witness: on the January/March 2024 store, a query for 2030 (no data)
skips, and the month-13 query of 2024 equals the year-level query. -/
theorem C9_witness :
    latestScaled dfC9 (some 2030) none = none ∧
      latestScaled dfC9 (some 2024) (some 13) =
        latestScaled dfC9 (some 2024) none :=
  ⟨(C9_amended_period_handling dfC9 2030 1 none (by decide)).1 (by decide),
    (C9_amended_period_handling dfC9 2024 13 none (by decide)).2.1
      (by decide) (by decide)⟩

end Fred
